import Mathlib

/-!
Verification of the multi-metric pronunciation scoring core of the
CALIFICADOR_AIMARA backend (`src/backend/main.py`).

The embedding below translates, from the Python source:
* `normalize_text` (lines 33–37): lowercase, strip, NFD-decompose, keep
  alphabetic characters and spaces.  Python's `str.lower`,
  `unicodedata.normalize("NFD", ·)` and `str.isalpha` act on all of
  Unicode; the model covers the script the application works over
  (ASCII plus the Spanish accented letters á é í ó ú ü ñ and their
  uppercase forms).  Characters outside the modelled set are
  non-alphabetic for the model, exactly as the filter treats every
  non-letter.
* `calcular_levenshtein_score` (40–45) over `rapidfuzz`'s uniform
  Levenshtein distance, whose `normalized_distance` is
  `dist / max(len1, len2)`.
* `calcular_sequence_score` (48–51) over `difflib.SequenceMatcher`
  (no junk: the autojunk heuristic is inert for `len(b) < 200`).
  `find_longest_match` returns the longest common contiguous block,
  ties broken by least start in `a` then least start in `b`, which is
  what the stdlib's dynamic program computes; `ratio` is
  `2*M/(len1+len2)` with `M` the total size of the recursively
  collected matching blocks.
* `calcular_fuzzy_score` (54–57) over `rapidfuzz.fuzz.ratio`, the
  normalized indel similarity `100 * (1 - dist/(len1+len2))` with
  `indel dist = len1 + len2 - 2*lcs`.
* `calcular_fonetico_score` (60–84): the `grupos` table applied in dict
  insertion order, each rule replacing every occurrence of each group
  character by the rule key's first character, then the SequenceMatcher
  ratio of the folded strings.
* the final-score aggregation in `evaluate_audio` (163–168):
  `int(fuzzy*0.3 + lev*0.3 + seq*0.2 + fonetico*0.2)` — modelled
  exactly as IEEE-754 double-precision arithmetic (round to nearest,
  ties to even) over exact rationals, since the float literals `0.3`
  and `0.2` are not exact and the rounding is observable in the output.

Metric scores convert a ratio to an integer via Python `int(·)`
(truncation toward zero).  The metric ratios are modelled in exact
rational (hence `Nat` division) arithmetic; at every input relevant to
a claim below the double computation and the exact computation agree
(the ratios there are exactly representable or the claims only need
the 0/100 boundary cases, where the float arithmetic is exact).
-/

set_option maxRecDepth 200000

namespace Calificador

/-- Text is modelled as a list of characters (Python `str`). -/
abbrev Str := List Char

/-! ## Text normalizer (`normalize_text`, main.py lines 33–37) -/

/-- The whitespace characters removed by Python `str.strip()`
(ASCII whitespace; the wider Unicode whitespace is outside the
modelled alphabet). -/
def pyWhitespace (c : Char) : Bool :=
  c = ' ' || c = '\t' || c = '\n' || c = '\x0b' || c = '\x0c' || c = '\r'

/-- The case mappings of Python `str.lower()` on the modelled
alphabet: ASCII letters and the Spanish accented letters. -/
def lowerPairs : List (Char × Char) :=
  [('A', 'a'), ('B', 'b'), ('C', 'c'), ('D', 'd'), ('E', 'e'), ('F', 'f'),
   ('G', 'g'), ('H', 'h'), ('I', 'i'), ('J', 'j'), ('K', 'k'), ('L', 'l'),
   ('M', 'm'), ('N', 'n'), ('O', 'o'), ('P', 'p'), ('Q', 'q'), ('R', 'r'),
   ('S', 's'), ('T', 't'), ('U', 'u'), ('V', 'v'), ('W', 'w'), ('X', 'x'),
   ('Y', 'y'), ('Z', 'z'),
   ('Á', 'á'), ('É', 'é'), ('Í', 'í'), ('Ó', 'ó'), ('Ú', 'ú'),
   ('Ü', 'ü'), ('Ñ', 'ñ')]

/-- Python `str.lower()`, character-wise (it is character-wise on the
modelled alphabet). -/
def pyLowerChar (c : Char) : Char :=
  (((lowerPairs.find? (fun p => p.1 = c)).map Prod.snd).getD c)

/-- Canonical (NFD) decompositions of the modelled precomposed
characters: base letter followed by a combining mark
(U+0301 acute, U+0303 tilde, U+0308 diaeresis). -/
def nfdPairs : List (Char × List Char) :=
  [('á', ['a', '́']), ('é', ['e', '́']), ('í', ['i', '́']),
   ('ó', ['o', '́']), ('ú', ['u', '́']), ('ñ', ['n', '̃']),
   ('ü', ['u', '̈']),
   ('Á', ['A', '́']), ('É', ['E', '́']), ('Í', ['I', '́']),
   ('Ó', ['O', '́']), ('Ú', ['U', '́']), ('Ñ', ['N', '̃']),
   ('Ü', ['U', '̈'])]

/-- `unicodedata.normalize("NFD", ·)`, character-wise. -/
def nfdChar (c : Char) : List Char :=
  (((nfdPairs.find? (fun p => p.1 = c)).map Prod.snd).getD [c])

/-- The lowercase ASCII letters. -/
def lowerLetters : List Char :=
  ['a', 'b', 'c', 'd', 'e', 'f', 'g', 'h', 'i', 'j', 'k', 'l', 'm',
   'n', 'o', 'p', 'q', 'r', 's', 't', 'u', 'v', 'w', 'x', 'y', 'z']

/-- The uppercase ASCII letters. -/
def upperLetters : List Char :=
  ['A', 'B', 'C', 'D', 'E', 'F', 'G', 'H', 'I', 'J', 'K', 'L', 'M',
   'N', 'O', 'P', 'Q', 'R', 'S', 'T', 'U', 'V', 'W', 'X', 'Y', 'Z']

/-- The modelled accented letters (alphabetic for `str.isalpha`). -/
def accentedLetters : List Char :=
  ['á', 'é', 'í', 'ó', 'ú', 'ü', 'ñ', 'Á', 'É', 'Í', 'Ó', 'Ú', 'Ü', 'Ñ']

/-- Python `str.isalpha()` on the modelled alphabet.  Combining marks
are category Mn, not alphabetic, exactly as in Python. -/
def pyIsAlpha (c : Char) : Bool :=
  c ∈ lowerLetters || c ∈ upperLetters || c ∈ accentedLetters

/-- Python `str.strip()`: drop leading and trailing whitespace. -/
def pyStrip (s : Str) : Str :=
  ((s.dropWhile pyWhitespace).reverse.dropWhile pyWhitespace).reverse

/-- `normalize_text` (main.py 33–37): lowercase, strip, NFD-decompose,
then keep only alphabetic characters and spaces. -/
def normalize_text (s : Str) : Str :=
  ((pyStrip (s.map pyLowerChar)).flatMap nfdChar).filter
    (fun c => pyIsAlpha c || c = ' ')

/-! ## Levenshtein metric (`calcular_levenshtein_score`, main.py 40–45) -/

/-- Uniform Levenshtein edit distance (insert/delete/substitute each
cost 1), the distance computed by `rapidfuzz.distance.Levenshtein`
with its default weights. -/
def levDist : Str → Str → Nat
  | [], p2 => p2.length
  | p1, [] => p1.length
  | c1 :: t1, c2 :: t2 =>
    if c1 = c2 then levDist t1 t2
    else 1 + min (levDist t1 (c2 :: t2)) (min (levDist (c1 :: t1) t2) (levDist t1 t2))

/-- `calcular_levenshtein_score` (main.py 40–45).  `rapidfuzz`'s
`Levenshtein.normalized_distance` is `dist / max(len1, len2)`, so
`int((1 - normalized_distance) * 100)` is
`(max - dist) * 100 / max` truncated (`levDist_le_max` below shows
`dist ≤ max`, so the `Nat` subtraction is exact). -/
def calcular_levenshtein_score (p1 p2 : Str) : Nat :=
  if p1 = [] ∧ p2 = [] then 100
  else if p1 = [] ∨ p2 = [] then 0
  else
    (max p1.length p2.length - levDist p1 p2) * 100 / max p1.length p2.length

/-! ## SequenceMatcher metric (`calcular_sequence_score`, main.py 48–51) -/

/-- Helper for `runLen`: the fuel is kept equal to `ahi - i`, so
`i < ahi` is exactly `0 < fuel`. -/
def runLenF (a b : Str) (bhi : Nat) : Nat → Nat → Nat → Nat
  | 0, _, _ => 0
  | fuel + 1, i, j =>
    if j < bhi ∧ a.getD i ' ' = b.getD j ' ' then
      runLenF a b bhi fuel (i + 1) (j + 1) + 1
    else 0

/-- Length of the common run of `a` (from `i`, below `ahi`) and `b`
(from `j`, below `bhi`). -/
def runLen (a b : Str) (ahi bhi i j : Nat) : Nat :=
  runLenF a b bhi (ahi - i) i j

/-- `difflib.SequenceMatcher.find_longest_match` on
`a[alo:ahi]`/`b[blo:bhi]` (no junk, which is exact for `len(b) < 200`):
the longest common contiguous block, ties broken by least start in `a`
and then least start in `b`; `(alo, blo, 0)` when there is no common
block. -/
def findLongestMatch (a b : Str) (alo ahi blo bhi : Nat) : Nat × Nat × Nat :=
  ((List.range' alo (ahi - alo)).flatMap fun i =>
      (List.range' blo (bhi - blo)).map fun j => (i, j)).foldl
    (fun best ij =>
      let k := runLen a b ahi bhi ij.1 ij.2
      if best.2.2 < k then (ij.1, ij.2, k) else best)
    (alo, blo, 0)

/-- Total size of the matching blocks collected by
`SequenceMatcher.get_matching_blocks`: recursively take the longest
match and recurse on both sides.  The fuel only bounds the recursion
depth; `(ahi - alo) + (bhi - blo) + 1` always suffices because each
recursive call strictly shrinks the interval pair. -/
def matchingTotalF : Nat → Str → Str → Nat → Nat → Nat → Nat → Nat
  | 0, _, _, _, _, _, _ => 0
  | fuel + 1, a, b, alo, ahi, blo, bhi =>
    let m := findLongestMatch a b alo ahi blo bhi
    if m.2.2 = 0 then 0
    else
      matchingTotalF fuel a b alo m.1 blo m.2.1 + m.2.2 +
        matchingTotalF fuel a b (m.1 + m.2.2) ahi (m.2.1 + m.2.2) bhi

/-- Total matched size `M` for two whole strings. -/
def matchingTotal (a b : Str) : Nat :=
  matchingTotalF (a.length + b.length + 1) a b 0 a.length 0 b.length

/-- `calcular_sequence_score` (main.py 48–51): 100 when both inputs are
empty, otherwise `int(SequenceMatcher(None, p1, p2).ratio() * 100)`
with `ratio = 2*M/(len1+len2)`, truncated. -/
def calcular_sequence_score (p1 p2 : Str) : Nat :=
  if p1 = [] ∧ p2 = [] then 100
  else 2 * matchingTotal p1 p2 * 100 / (p1.length + p2.length)

/-! ## Fuzzy metric (`calcular_fuzzy_score`, main.py 54–57) -/

/-- Length of a longest common subsequence. -/
def lcsLen : Str → Str → Nat
  | [], _ => 0
  | _, [] => 0
  | c1 :: t1, c2 :: t2 =>
    if c1 = c2 then lcsLen t1 t2 + 1
    else max (lcsLen (c1 :: t1) t2) (lcsLen t1 (c2 :: t2))

/-- `calcular_fuzzy_score` (main.py 54–57).  `rapidfuzz.fuzz.ratio` is
the normalized indel similarity `100 * (1 - dist/(len1+len2))` with
`dist = len1 + len2 - 2*lcs`, i.e. `200*lcs/(len1+len2)`;
`int(·)` truncates. -/
def calcular_fuzzy_score (p1 p2 : Str) : Nat :=
  if p1 = [] ∧ p2 = [] then 100
  else 200 * lcsLen p1 p2 / (p1.length + p2.length)

/-! ## Phonetic metric (`calcular_fonetico_score`, main.py 60–84) -/

/-- The `grupos` dict (main.py 61–72) in Python 3.7+ insertion order.
Each entry is (replacement, group): the replacement is the first
character of the dict key (so the key `"ll"` contributes replacement
`'l'`), and the group is the key's value as a character list. -/
def grupos : List (Char × List Char) :=
  [('b', ['b', 'v']), ('v', ['b', 'v']),
   ('c', ['c', 'k', 's', 'z']), ('s', ['s', 'c', 'z']), ('z', ['z', 's']),
   ('g', ['g', 'j']), ('j', ['j', 'g']),
   ('l', ['l', 'l', 'y']), ('y', ['y', 'l', 'l']),
   ('r', ['r', 'r'])]

/-- Python `str.replace(l, repl)` for single characters. -/
def replaceAll (l repl : Char) (p : Str) : Str :=
  p.map fun c => if c = l then repl else c

/-- The inner `nf` fold of `calcular_fonetico_score` (main.py 74–80):
lowercase, then for each rule in order replace every occurrence of
every group character by the rule's replacement character. -/
def foneticoFold (p : Str) : Str :=
  grupos.foldl (fun q sg => sg.2.foldl (fun q l => replaceAll l sg.1 q) q)
    (p.map pyLowerChar)

/-- The character-level action of the `grupos` fold (the fold is a
composition of character-wise maps). -/
def foldCharRules (d : Char) : Char :=
  grupos.foldl (fun d sg => sg.2.foldl (fun d l => if d = l then sg.1 else d) d) d

/-- `calcular_fonetico_score` (main.py 60–84): 100 when both inputs are
empty, otherwise the SequenceMatcher score of the folded strings. -/
def calcular_fonetico_score (p1 p2 : Str) : Nat :=
  if p1 = [] ∧ p2 = [] then 100
  else
    2 * matchingTotal (foneticoFold p1) (foneticoFold p2) * 100 /
      ((foneticoFold p1).length + (foneticoFold p2).length)

/-! ## Final-score aggregation (`evaluate_audio`, main.py 163–168)

The Python expression
`int(fuzzy*0.3 + lev*0.3 + seq*0.2 + fonetico*0.2)` is IEEE-754
double-precision arithmetic: the literals `0.3` and `0.2` and every
product and (left-associated) sum are rounded to the nearest double,
ties to even.  Doubles arising here are exactly representable
rationals, so the computation is modelled by exact rationals together
with the rounding function. -/

/-- A nonnegative IEEE-754 binary64 value `mant * 2 ^ exp`, with
`mant` either `0` or a normalized 53-bit mantissa
(`2^52 ≤ mant < 2^53`).  Every value in the modelled computation is
nonnegative and far from the overflow and subnormal ranges, so this
carries the full IEEE behaviour of the Python expression. -/
structure D where
  mant : Nat
  exp : Int
  deriving DecidableEq

/-- Number of binary digits (`0` for `0`); the fuel is an upper bound
on the bit length, `200` is ample for every number arising here. -/
def bitLen : Nat → Nat → Nat
  | 0, _ => 0
  | fuel + 1, n => if n = 0 then 0 else bitLen fuel (n / 2) + 1

/-- Round `m / 2^k` to the nearest integer, ties to even. -/
def roundShift (m k : Nat) : Nat :=
  if k = 0 then m
  else
    let q := m / 2 ^ k
    let r := m % 2 ^ k
    let half := 2 ^ (k - 1)
    if r < half then q
    else if half < r then q + 1
    else if q % 2 = 0 then q else q + 1

/-- Normalize (and correctly round, nearest/ties-even) the value
`m * 2 ^ e` to a binary64 `D`. -/
def dnorm (m : Nat) (e : Int) : D :=
  if m = 0 then ⟨0, 0⟩
  else
    let b := bitLen 200 m
    if b ≤ 53 then ⟨m * 2 ^ (53 - b), e - (53 - b)⟩
    else
      let k := b - 53
      let n := roundShift m k
      if n = 2 ^ 53 then ⟨2 ^ 52, e + k + 1⟩ else ⟨n, e + k⟩

/-- The binary64 nearest to the fraction `p / q` (for `p, q > 0`):
how the Python parser turns the literals `0.3 = 3/10` and `0.2 = 2/10`
into doubles. -/
def dofRat (p q : Nat) : D :=
  if p = 0 ∨ q = 0 then ⟨0, 0⟩
  else
    let t := bitLen 200 q + 60
    let A := p * 2 ^ t
    let b := bitLen 400 (A / q)
    let k := b - 53
    let Dq := q * 2 ^ k
    let n := A / Dq
    let r := A % Dq
    let n2 :=
      if 2 * r < Dq then n
      else if Dq < 2 * r then n + 1
      else if n % 2 = 0 then n else n + 1
    dnorm n2 (k - t)

/-- A natural number as a binary64 (exact for `n < 2^53`, so for every
metric score). -/
def dofNat (n : Nat) : D := dnorm n 0

/-- Binary64 multiplication: exact product, then one rounding. -/
def dmul (x y : D) : D :=
  if x.mant = 0 ∨ y.mant = 0 then ⟨0, 0⟩
  else dnorm (x.mant * y.mant) (x.exp + y.exp)

/-- Binary64 addition of nonnegative values: exact aligned sum, then
one rounding. -/
def dadd (x y : D) : D :=
  if x.mant = 0 then y
  else if y.mant = 0 then x
  else
    let e := min x.exp y.exp
    dnorm (x.mant * 2 ^ (x.exp - e).toNat + y.mant * 2 ^ (y.exp - e).toNat) e

/-- Python `int(·)` of a nonnegative binary64: truncation toward zero
(floor, for nonnegative values). -/
def dtrunc (x : D) : Nat :=
  if 0 ≤ x.exp then x.mant * 2 ^ x.exp.toNat else x.mant / 2 ^ (-x.exp).toNat

/-- The Python float literal `0.3` (the double nearest 3/10). -/
def lit03 : D := dofRat 3 10

/-- The Python float literal `0.2` (the double nearest 2/10). -/
def lit02 : D := dofRat 2 10

/-- The binary64 value of
`fuzzy*0.3 + lev*0.3 + seq*0.2 + fonetico*0.2` (main.py 163–168),
left-associated as Python evaluates it. -/
def weightedDoubleSum (fuzzy lev seq fonetico : Nat) : D :=
  dadd
    (dadd (dadd (dmul (dofNat fuzzy) lit03) (dmul (dofNat lev) lit03))
      (dmul (dofNat seq) lit02))
    (dmul (dofNat fonetico) lit02)

/-- `final_score` as computed by `evaluate_audio` (main.py 163–168):
`int(fuzzy*0.3 + lev*0.3 + seq*0.2 + fonetico*0.2)`. -/
def evaluate_final_score (fuzzy lev seq fonetico : Nat) : Nat :=
  dtrunc (weightedDoubleSum fuzzy lev seq fonetico)

/-- The exact rational value of a `D`. -/
def dval (x : D) : ℚ :=
  if 0 ≤ x.exp then (x.mant : ℚ) * 2 ^ x.exp.toNat
  else (x.mant : ℚ) / 2 ^ (-x.exp).toNat

/-- Modelled from the spec's words (§4.3/§6): the aggregator as the
exact weighted sum `fuzzy*0.30 + lev*0.30 + seq*0.20 + fonetico*0.20`
truncated toward zero — the reading of claim C4 in exact (real)
arithmetic, for comparison with `evaluate_final_score`. -/
def aggregate_exact (fuzzy lev seq fonetico : Nat) : ℤ :=
  ⌊(fuzzy : ℚ) * (3 / 10) + (lev : ℚ) * (3 / 10) +
    (seq : ℚ) * (2 / 10) + (fonetico : ℚ) * (2 / 10)⌋

/-! ## Lemmas: the SequenceMatcher model -/

theorem runLenF_le (a b : Str) (bhi : Nat) :
    ∀ (fuel i j : Nat), runLenF a b bhi fuel i j ≤ fuel := by
  intro fuel
  induction fuel with
  | zero => intro i j; simp [runLenF]
  | succ f ih =>
    intro i j
    simp only [runLenF]
    split
    · exact Nat.succ_le_succ (ih (i + 1) (j + 1))
    · exact Nat.zero_le _

theorem runLenF_le_sub (a b : Str) (bhi : Nat) :
    ∀ (fuel i j : Nat), runLenF a b bhi fuel i j ≤ bhi - j := by
  intro fuel
  induction fuel with
  | zero => intro i j; simp [runLenF]
  | succ f ih =>
    intro i j
    simp only [runLenF]
    split
    · rename_i h
      have := ih (i + 1) (j + 1)
      omega
    · exact Nat.zero_le _

theorem runLen_le (a b : Str) (ahi bhi i j : Nat) :
    runLen a b ahi bhi i j ≤ ahi - i :=
  runLenF_le a b bhi (ahi - i) i j

theorem runLen_le_sub (a b : Str) (ahi bhi i j : Nat) :
    runLen a b ahi bhi i j ≤ bhi - j :=
  runLenF_le_sub a b bhi (ahi - i) i j

theorem runLenF_self (a : Str) (n : Nat) :
    ∀ (fuel i : Nat), fuel ≤ n - i → runLenF a a n fuel i i = fuel := by
  intro fuel
  induction fuel with
  | zero => intro i _; simp [runLenF]
  | succ f ih =>
    intro i h
    have hin : i < n := by omega
    simp only [runLenF, hin, and_self, if_true, and_true, true_and, if_pos rfl]
    rw [ih (i + 1) (by omega)]

theorem runLen_self (a : Str) (n i : Nat) :
    runLen a a n n i i = n - i := by
  unfold runLen
  exact runLenF_self a n (n - i) i (Nat.le_refl _)

/-- `foldl` preserves any invariant preserved by each step. -/
theorem foldl_invariant {α β : Type} (P : α → Prop) (f : α → β → α)
    (l : List β) (init : α) (h0 : P init)
    (hstep : ∀ x b, b ∈ l → P x → P (f x b)) : P (l.foldl f init) := by
  induction l generalizing init with
  | nil => exact h0
  | cons c cs ih =>
    exact ih (f init c) (hstep init c (by simp) h0)
      (fun x b hb hx => hstep x b (by simp [hb]) hx)

/-- The candidate list scanned by `findLongestMatch`. -/
def flmPairs (alo ahi blo bhi : Nat) : List (Nat × Nat) :=
  (List.range' alo (ahi - alo)).flatMap fun i =>
    (List.range' blo (bhi - blo)).map fun j => (i, j)

theorem findLongestMatch_eq (a b : Str) (alo ahi blo bhi : Nat) :
    findLongestMatch a b alo ahi blo bhi =
      (flmPairs alo ahi blo bhi).foldl
        (fun best ij =>
          let k := runLen a b ahi bhi ij.1 ij.2
          if best.2.2 < k then (ij.1, ij.2, k) else best)
        (alo, blo, 0) := rfl

theorem mem_flmPairs {alo ahi blo bhi : Nat} {ij : Nat × Nat}
    (h : ij ∈ flmPairs alo ahi blo bhi) :
    alo ≤ ij.1 ∧ ij.1 < ahi ∧ blo ≤ ij.2 ∧ ij.2 < bhi := by
  simp only [flmPairs, List.mem_flatMap, List.mem_map] at h
  obtain ⟨i, hi, j, hj, rfl⟩ := h
  rw [List.mem_range'_1] at hi hj
  exact ⟨hi.1, by omega, hj.1, by omega⟩

/-- Bounds for the block returned by `findLongestMatch`: a zero-size
default, or a genuine in-range block. -/
theorem findLongestMatch_bounds (a b : Str) (alo ahi blo bhi : Nat) :
    (findLongestMatch a b alo ahi blo bhi).2.2 = 0 ∨
      (alo ≤ (findLongestMatch a b alo ahi blo bhi).1 ∧
        (findLongestMatch a b alo ahi blo bhi).1 +
          (findLongestMatch a b alo ahi blo bhi).2.2 ≤ ahi ∧
        blo ≤ (findLongestMatch a b alo ahi blo bhi).2.1 ∧
        (findLongestMatch a b alo ahi blo bhi).2.1 +
          (findLongestMatch a b alo ahi blo bhi).2.2 ≤ bhi) := by
  rw [findLongestMatch_eq]
  apply foldl_invariant
    (fun x : Nat × Nat × Nat => x.2.2 = 0 ∨
      (alo ≤ x.1 ∧ x.1 + x.2.2 ≤ ahi ∧ blo ≤ x.2.1 ∧ x.2.1 + x.2.2 ≤ bhi))
  · exact Or.inl rfl
  · intro x ij hij hx
    simp only
    split
    · have hm := mem_flmPairs hij
      have h1 := runLen_le a b ahi bhi ij.1 ij.2
      have h2 := runLen_le_sub a b ahi bhi ij.1 ij.2
      right
      show alo ≤ ij.1 ∧ ij.1 + runLen a b ahi bhi ij.1 ij.2 ≤ ahi ∧
        blo ≤ ij.2 ∧ ij.2 + runLen a b ahi bhi ij.1 ij.2 ≤ bhi
      omega
    · exact hx

/-- When either interval is empty there is no candidate pair, so
`findLongestMatch` returns the zero-size default. -/
theorem findLongestMatch_of_empty (a b : Str) (alo ahi blo bhi : Nat)
    (h : ahi ≤ alo ∨ bhi ≤ blo) :
    findLongestMatch a b alo ahi blo bhi = (alo, blo, 0) := by
  rw [findLongestMatch_eq]
  have hp : flmPairs alo ahi blo bhi = [] := by
    rcases h with h | h
    · simp [flmPairs, Nat.sub_eq_zero_of_le h]
    · simp [flmPairs, Nat.sub_eq_zero_of_le h]
  rw [hp]
  rfl

theorem matchingTotalF_of_empty (fuel : Nat) (a b : Str)
    (alo ahi blo bhi : Nat) (h : ahi ≤ alo ∨ bhi ≤ blo) :
    matchingTotalF fuel a b alo ahi blo bhi = 0 := by
  cases fuel with
  | zero => rfl
  | succ f =>
    simp only [matchingTotalF, findLongestMatch_of_empty a b alo ahi blo bhi h]
    rfl

/-- The total matched size is at most each interval's size. -/
theorem matchingTotalF_le (fuel : Nat) :
    ∀ (a b : Str) (alo ahi blo bhi : Nat),
      matchingTotalF fuel a b alo ahi blo bhi ≤
        min (ahi - alo) (bhi - blo) := by
  induction fuel with
  | zero => intro a b alo ahi blo bhi; simp [matchingTotalF]
  | succ f ih =>
    intro a b alo ahi blo bhi
    simp only [matchingTotalF]
    split
    · exact Nat.zero_le _
    · rename_i hk
      rcases findLongestMatch_bounds a b alo ahi blo bhi with h0 | hb
      · exact absurd h0 hk
      · have h1 := ih a b alo (findLongestMatch a b alo ahi blo bhi).1 blo
          (findLongestMatch a b alo ahi blo bhi).2.1
        have h2 := ih a b
          ((findLongestMatch a b alo ahi blo bhi).1 +
            (findLongestMatch a b alo ahi blo bhi).2.2) ahi
          ((findLongestMatch a b alo ahi blo bhi).2.1 +
            (findLongestMatch a b alo ahi blo bhi).2.2) bhi
        omega

theorem matchingTotal_le (a b : Str) :
    matchingTotal a b ≤ min a.length b.length := by
  have h := matchingTotalF_le (a.length + b.length + 1) a b 0 a.length 0 b.length
  simpa using h

/-- A fold step never updates past candidates that do not beat the
current best. -/
theorem flm_foldl_const (a b : Str) (ahi bhi : Nat)
    (l : List (Nat × Nat)) (best : Nat × Nat × Nat)
    (h : ∀ ij ∈ l, runLen a b ahi bhi ij.1 ij.2 ≤ best.2.2) :
    l.foldl
      (fun best ij =>
        let k := runLen a b ahi bhi ij.1 ij.2
        if best.2.2 < k then (ij.1, ij.2, k) else best)
      best = best := by
  induction l with
  | nil => rfl
  | cons c cs ih =>
    have hc : ¬ best.2.2 < runLen a b ahi bhi c.1 c.2 :=
      Nat.not_lt.mpr (h c (by simp))
    simp only [List.foldl_cons, if_neg hc]
    exact ih (fun ij hij => h ij (by simp [hij]))

/-- On two copies of the same string, the longest match is the whole
string. -/
theorem findLongestMatch_self (a : Str) (n : Nat) (hn : 0 < n)
    (hna : n = a.length) :
    findLongestMatch a a 0 n 0 n = (0, 0, n) := by
  rw [findLongestMatch_eq]
  have hsplit : flmPairs 0 n 0 n =
      (0, 0) :: ((List.range' 1 (n - 1)).map (fun j => (0, j)) ++
        (List.range' 1 (n - 1)).flatMap fun i =>
          (List.range' 0 n).map fun j => (i, j)) := by
    unfold flmPairs
    obtain ⟨m, rfl⟩ : ∃ m, n = m + 1 := ⟨n - 1, by omega⟩
    rw [Nat.sub_zero, List.range'_succ]
    simp [List.range'_succ, List.flatMap_cons]
  rw [hsplit]
  simp only [List.foldl_cons, List.foldl_append]
  rw [runLen_self a n 0]
  simp only [Nat.sub_zero, show (0, 0, 0).2.2 = 0 from rfl, if_pos hn]
  rw [flm_foldl_const a a n n _ (0, 0, n) ?h1]
  case h1 =>
    intro ij hij
    simp only [List.mem_map, List.mem_range'_1] at hij
    obtain ⟨j, hj, rfl⟩ := hij
    have := runLen_le_sub a a n n 0 j
    show runLen a a n n 0 j ≤ n
    omega
  rw [flm_foldl_const a a n n _ (0, 0, n) ?h2]
  case h2 =>
    intro ij hij
    simp only [List.mem_flatMap, List.mem_map, List.mem_range'_1] at hij
    obtain ⟨i, hi, j, hj, rfl⟩ := hij
    have := runLen_le a a n n i j
    show runLen a a n n i j ≤ n
    omega

/-- On two copies of the same string the total matched size is the
whole length. -/
theorem matchingTotal_self (a : Str) : matchingTotal a a = a.length := by
  rcases Nat.eq_zero_or_pos a.length with h0 | hpos
  · unfold matchingTotal
    rw [matchingTotalF_of_empty _ _ _ _ _ _ _ (Or.inl (by omega))]
    omega
  · unfold matchingTotal
    have hfl := findLongestMatch_self a a.length hpos rfl
    simp only [show a.length + a.length + 1 = (a.length + a.length) + 1 from rfl,
      matchingTotalF, hfl]
    rw [if_neg (by omega)]
    have h1 : matchingTotalF (a.length + a.length) a a 0 0 0 0 = 0 :=
      matchingTotalF_of_empty _ _ _ _ _ _ _ (Or.inl (Nat.le_refl 0))
    have h2 : matchingTotalF (a.length + a.length) a a
        (0 + a.length) a.length (0 + a.length) a.length = 0 :=
      matchingTotalF_of_empty _ _ _ _ _ _ _ (Or.inl (by omega))
    rw [h1, h2]
    omega

/-- With an empty side, no block matches. -/
theorem matchingTotal_nil_right (a : Str) : matchingTotal a [] = 0 := by
  unfold matchingTotal
  exact matchingTotalF_of_empty _ _ _ _ _ _ _ (Or.inr (by simp))

theorem matchingTotal_nil_left (b : Str) : matchingTotal [] b = 0 := by
  unfold matchingTotal
  exact matchingTotalF_of_empty _ _ _ _ _ _ _ (Or.inl (by simp))

/-! ## Lemmas: score-level facts -/

theorem div_le_100 {num den : Nat} (h : num ≤ 100 * den) : num / den ≤ 100 := by
  rcases Nat.eq_zero_or_pos den with h0 | hpos
  · simp [h0, Nat.div_zero]
  · calc num / den ≤ 100 * den / den := Nat.div_le_div_right h
      _ = 100 := Nat.mul_div_cancel 100 hpos

theorem seq_ratio_self (n : Nat) (h : 0 < n) : 2 * n * 100 / (n + n) = 100 := by
  have hx : 2 * n * 100 = 100 * (n + n) := by ring
  rw [hx, Nat.mul_div_cancel 100 (by omega)]

theorem calcular_sequence_score_self (p : Str) (h : p ≠ []) :
    calcular_sequence_score p p = 100 := by
  unfold calcular_sequence_score
  rw [if_neg (by simp [h])]
  rw [matchingTotal_self]
  exact seq_ratio_self p.length (by simpa using List.length_pos.mpr h)

theorem calcular_sequence_score_nil_right (p : Str) (h : p ≠ []) :
    calcular_sequence_score p [] = 0 := by
  unfold calcular_sequence_score
  rw [if_neg (by simp [h])]
  rw [matchingTotal_nil_right]
  simp

theorem calcular_sequence_score_nil_left (p : Str) (h : p ≠ []) :
    calcular_sequence_score [] p = 0 := by
  unfold calcular_sequence_score
  rw [if_neg (by simp [h])]
  rw [matchingTotal_nil_left]
  simp

theorem calcular_sequence_score_le (p1 p2 : Str) :
    calcular_sequence_score p1 p2 ≤ 100 := by
  unfold calcular_sequence_score
  split
  · exact Nat.le_refl 100
  · apply div_le_100
    have := matchingTotal_le p1 p2
    have h1 : matchingTotal p1 p2 ≤ p1.length := by omega
    have h2 : matchingTotal p1 p2 ≤ p2.length := by omega
    omega

/-! ## Lemmas: Levenshtein -/

theorem levDist_self (p : Str) : levDist p p = 0 := by
  induction p with
  | nil => simp [levDist]
  | cons c t ih => simp [levDist, ih]

theorem levDist_le_max (p1 p2 : Str) :
    levDist p1 p2 ≤ max p1.length p2.length := by
  induction p1 generalizing p2 with
  | nil => simp [levDist]
  | cons c1 t1 ih1 =>
    induction p2 with
    | nil => simp [levDist]
    | cons c2 t2 ih2 =>
      simp only [levDist]
      split
      · have := ih1 t2
        simp only [List.length_cons]
        omega
      · have ha := ih1 (c2 :: t2)
        have hb := ih1 t2
        simp only [List.length_cons] at ha hb ⊢
        omega

theorem calcular_levenshtein_score_self (p : Str) (h : p ≠ []) :
    calcular_levenshtein_score p p = 100 := by
  unfold calcular_levenshtein_score
  rw [if_neg (by simp [h]), if_neg (by simp [h])]
  rw [levDist_self, Nat.max_self, Nat.sub_zero]
  have hl : 0 < p.length := List.length_pos.mpr h
  exact Nat.mul_div_cancel_left 100 hl

theorem calcular_levenshtein_score_le (p1 p2 : Str) :
    calcular_levenshtein_score p1 p2 ≤ 100 := by
  unfold calcular_levenshtein_score
  split
  · exact Nat.le_refl 100
  · split
    · exact Nat.zero_le 100
    · apply div_le_100
      have : max p1.length p2.length - levDist p1 p2 ≤ max p1.length p2.length :=
        Nat.sub_le _ _
      calc (max p1.length p2.length - levDist p1 p2) * 100
          ≤ max p1.length p2.length * 100 := Nat.mul_le_mul_right 100 this
        _ = 100 * max p1.length p2.length := Nat.mul_comm _ _

/-! ## Lemmas: LCS / fuzzy -/

theorem lcsLen_self (p : Str) : lcsLen p p = p.length := by
  induction p with
  | nil => simp [lcsLen]
  | cons c t ih => simp [lcsLen, ih]

theorem lcsLen_le_left (p1 p2 : Str) : lcsLen p1 p2 ≤ p1.length := by
  induction p1 generalizing p2 with
  | nil => simp [lcsLen]
  | cons c1 t1 ih1 =>
    induction p2 with
    | nil => simp [lcsLen]
    | cons c2 t2 ih2 =>
      simp only [lcsLen]
      split
      · have := ih1 t2
        simp only [List.length_cons]
        omega
      · have ha := ih1 (c2 :: t2)
        simp only [List.length_cons] at ha ih2 ⊢
        omega

theorem lcsLen_le_right (p1 p2 : Str) : lcsLen p1 p2 ≤ p2.length := by
  induction p1 generalizing p2 with
  | nil => simp [lcsLen]
  | cons c1 t1 ih1 =>
    induction p2 with
    | nil => simp [lcsLen]
    | cons c2 t2 ih2 =>
      simp only [lcsLen]
      split
      · have := ih1 t2
        simp only [List.length_cons]
        omega
      · have ha := ih1 (c2 :: t2)
        simp only [List.length_cons] at ha ih2 ⊢
        omega

theorem lcsLen_nil_right (p : Str) : lcsLen p [] = 0 := by
  cases p <;> simp [lcsLen]

theorem calcular_fuzzy_score_self (p : Str) (h : p ≠ []) :
    calcular_fuzzy_score p p = 100 := by
  unfold calcular_fuzzy_score
  rw [if_neg (by simp [h]), lcsLen_self]
  have hl : 0 < p.length := List.length_pos.mpr h
  have hx : 200 * p.length = 100 * (p.length + p.length) := by ring
  rw [hx, Nat.mul_div_cancel 100 (by omega)]

theorem calcular_fuzzy_score_le (p1 p2 : Str) :
    calcular_fuzzy_score p1 p2 ≤ 100 := by
  unfold calcular_fuzzy_score
  split
  · exact Nat.le_refl 100
  · apply div_le_100
    have h1 := lcsLen_le_left p1 p2
    have h2 := lcsLen_le_right p1 p2
    omega

/-! ## Lemmas: the phonetic fold -/

theorem foldl_replaceAll_map (cs : List Char) (r : Char) :
    ∀ p : Str,
      cs.foldl (fun q l => replaceAll l r q) p =
        p.map (fun d => cs.foldl (fun d l => if d = l then r else d) d) := by
  induction cs with
  | nil => intro p; simp
  | cons c ct ih =>
    intro p
    simp only [List.foldl_cons]
    rw [ih (replaceAll c r p)]
    rw [show replaceAll c r p = p.map (fun x => if x = c then r else x) from rfl,
      List.map_map]
    apply List.map_congr_left
    intro d _
    rfl

theorem foneticoFold_map (p : Str) :
    foneticoFold p = p.map (fun c => foldCharRules (pyLowerChar c)) := by
  have main : ∀ (gs : List (Char × List Char)) (q : Str),
      gs.foldl (fun q sg => sg.2.foldl (fun q l => replaceAll l sg.1 q) q) q =
        q.map (fun d =>
          gs.foldl (fun d sg => sg.2.foldl (fun d l => if d = l then sg.1 else d) d) d) := by
    intro gs
    induction gs with
    | nil => intro q; simp
    | cons g gt ih =>
      intro q
      simp only [List.foldl_cons]
      rw [foldl_replaceAll_map g.2 g.1 q]
      rw [ih (q.map fun d => g.2.foldl (fun d l => if d = l then g.1 else d) d)]
      rw [List.map_map]
      apply List.map_congr_left
      intro d _
      rfl
  rw [foneticoFold]
  rw [main grupos (p.map pyLowerChar), List.map_map]
  apply List.map_congr_left
  intro d _
  simp only [Function.comp_apply]
  rw [foldCharRules]

theorem foneticoFold_length (p : Str) :
    (foneticoFold p).length = p.length := by
  rw [foneticoFold_map, List.length_map]

theorem foneticoFold_nil : foneticoFold [] = [] := rfl

theorem zip_map_snd {f : Char → Char} :
    ∀ {s : Str} {pr : Char × Char}, pr ∈ s.zip (s.map f) → pr.2 = f pr.1 := by
  intro s
  induction s with
  | nil => intro pr h; simp at h
  | cons c t ih =>
    intro pr h
    simp only [List.map_cons, List.zip_cons_cons, List.mem_cons] at h
    rcases h with rfl | h
    · rfl
    · exact ih h

theorem calcular_fonetico_score_self (p : Str) (h : p ≠ []) :
    calcular_fonetico_score p p = 100 := by
  unfold calcular_fonetico_score
  rw [if_neg (by simp [h])]
  rw [matchingTotal_self, foneticoFold_length]
  exact seq_ratio_self p.length (by simpa using List.length_pos.mpr h)

theorem calcular_fonetico_score_nil_right (p : Str) (h : p ≠ []) :
    calcular_fonetico_score p [] = 0 := by
  unfold calcular_fonetico_score
  rw [if_neg (by simp [h])]
  rw [foneticoFold_nil, matchingTotal_nil_right]
  simp

theorem calcular_fonetico_score_nil_left (p : Str) (h : p ≠ []) :
    calcular_fonetico_score [] p = 0 := by
  unfold calcular_fonetico_score
  rw [if_neg (by simp [h])]
  rw [foneticoFold_nil, matchingTotal_nil_left]
  simp

theorem calcular_fonetico_score_le (p1 p2 : Str) :
    calcular_fonetico_score p1 p2 ≤ 100 := by
  unfold calcular_fonetico_score
  split
  · exact Nat.le_refl 100
  · apply div_le_100
    have := matchingTotal_le (foneticoFold p1) (foneticoFold p2)
    omega

/-! ## Lemmas: the normalizer -/

theorem mem_pyStrip {c : Char} {s : Str} (h : c ∈ pyStrip s) : c ∈ s := by
  unfold pyStrip at h
  rw [List.mem_reverse] at h
  have h1 := (List.dropWhile_sublist pyWhitespace).mem h
  rw [List.mem_reverse] at h1
  exact (List.dropWhile_sublist pyWhitespace).mem h1

theorem find_of_mem_keys {l : List (Char × Char)} {c : Char}
    (h : c ∈ l.map Prod.fst) : l.find? (fun p => p.1 = c) ≠ none := by
  intro hnone
  rw [List.find?_eq_none] at hnone
  rw [List.mem_map] at h
  obtain ⟨p, hp, hpc⟩ := h
  exact hnone p hp (by simp [hpc])

theorem findNfd_of_mem_keys {c : Char}
    (h : c ∈ nfdPairs.map Prod.fst) :
    nfdPairs.find? (fun p => p.1 = c) ≠ none := by
  intro hnone
  rw [List.find?_eq_none] at hnone
  rw [List.mem_map] at h
  obtain ⟨p, hp, hpc⟩ := h
  exact hnone p hp (by simp [hpc])

/-- The uppercase accented letters (they lowercase via `lowerPairs`). -/
def upperAccented : List Char :=
  ['Á', 'É', 'Í', 'Ó', 'Ú', 'Ü', 'Ñ']

/-- `pyLowerChar` never produces an uppercase (plain or accented)
letter. -/
theorem pyLower_not_upper (e : Char) :
    pyLowerChar e ∉ upperLetters ∧ pyLowerChar e ∉ upperAccented := by
  have dRange : ∀ pr ∈ lowerPairs,
      pr.2 ∉ upperLetters ∧ pr.2 ∉ upperAccented := by decide
  have dKeysU : ∀ c ∈ upperLetters, c ∈ lowerPairs.map Prod.fst := by decide
  have dKeysA : ∀ c ∈ upperAccented, c ∈ lowerPairs.map Prod.fst := by decide
  cases h1 : lowerPairs.find? (fun p => p.1 = e) with
  | some pr =>
    have hpr : pr ∈ lowerPairs := List.mem_of_find?_eq_some h1
    have hd : pyLowerChar e = pr.2 := by
      unfold pyLowerChar
      rw [h1]
      rfl
    rw [hd]
    exact dRange pr hpr
  | none =>
    have hd : pyLowerChar e = e := by
      unfold pyLowerChar
      rw [h1]
      rfl
    have hlk : e ∉ lowerPairs.map Prod.fst := fun hk => find_of_mem_keys hk h1
    rw [hd]
    exact ⟨fun hu => hlk (dKeysU e hu), fun ha => hlk (dKeysA e ha)⟩

/-- Characters produced by NFD-decomposing a lowercased character are
neither uppercase nor accented. -/
theorem nfd_lower_chars (e c : Char) (hc : c ∈ nfdChar (pyLowerChar e)) :
    c ∉ upperLetters ∧ c ∉ accentedLetters := by
  have dNfd : ∀ p ∈ nfdPairs, p.1 ∉ upperAccented →
      ∀ c ∈ p.2, c ∉ upperLetters ∧ c ∉ accentedLetters := by decide
  have dAccSplit : ∀ c ∈ accentedLetters, c ∉ upperAccented →
      c ∈ nfdPairs.map Prod.fst := by decide
  have hup := pyLower_not_upper e
  cases h2 : nfdPairs.find? (fun p => p.1 = pyLowerChar e) with
  | some q =>
    have hq : q ∈ nfdPairs := List.mem_of_find?_eq_some h2
    have hq1 : q.1 = pyLowerChar e := by
      have := List.find?_some h2
      simpa using this
    have hcq : c ∈ q.2 := by
      unfold nfdChar at hc
      rw [h2] at hc
      exact hc
    exact dNfd q hq (by rw [hq1]; exact hup.2) c hcq
  | none =>
    have hcd : c = pyLowerChar e := by
      unfold nfdChar at hc
      rw [h2] at hc
      simpa using hc
    have hnk : pyLowerChar e ∉ nfdPairs.map Prod.fst :=
      fun hk => findNfd_of_mem_keys hk h2
    rw [hcd]
    refine ⟨hup.1, fun ha => ?_⟩
    exact hnk (dAccSplit (pyLowerChar e) ha hup.2)

/-- Every character of a normalized string is a lowercase ASCII letter
or a space. -/
theorem normalize_chars (s : Str) (c : Char) (h : c ∈ normalize_text s) :
    c ∈ lowerLetters ∨ c = ' ' := by
  unfold normalize_text at h
  rw [List.mem_filter] at h
  obtain ⟨hmem, hpred⟩ := h
  rcases Bool.or_eq_true_iff.mp hpred with halpha | hsp
  · rw [List.mem_flatMap] at hmem
    obtain ⟨d, hd, hcd⟩ := hmem
    have hds := mem_pyStrip hd
    rw [List.mem_map] at hds
    obtain ⟨e, _, rfl⟩ := hds
    have hno := nfd_lower_chars e c hcd
    unfold pyIsAlpha at halpha
    rcases Bool.or_eq_true_iff.mp halpha with h | h
    · rcases Bool.or_eq_true_iff.mp h with h | h
      · left
        simpa using h
      · exact absurd (by simpa using h) hno.1
    · exact absurd (by simpa using h) hno.2
  · right
    simpa using hsp

/-- Lowercasing fixes lowercase-letters-and-spaces strings. -/
theorem pyLower_fixed {c : Char} (h : c ∈ lowerLetters ∨ c = ' ') :
    pyLowerChar c = c := by
  have d1 : ∀ c ∈ lowerLetters, pyLowerChar c = c := by decide
  have d2 : pyLowerChar ' ' = ' ' := by decide
  rcases h with h | rfl
  · exact d1 c h
  · exact d2

/-- NFD fixes lowercase-letters-and-spaces characters. -/
theorem nfdChar_fixed {c : Char} (h : c ∈ lowerLetters ∨ c = ' ') :
    nfdChar c = [c] := by
  have d1 : ∀ c ∈ lowerLetters, nfdChar c = [c] := by decide
  have d2 : nfdChar ' ' = [' '] := by decide
  rcases h with h | rfl
  · exact d1 c h
  · exact d2

theorem flatMap_fixed {l : Str} (h : ∀ c ∈ l, nfdChar c = [c]) :
    l.flatMap nfdChar = l := by
  induction l with
  | nil => rfl
  | cons c t ih =>
    rw [List.flatMap_cons, h c (by simp), ih (fun d hd => h d (by simp [hd]))]
    rfl

/-- Re-normalizing a normalized string only strips its edge spaces:
this is all that the second pass can do. -/
theorem normalize_normalize (s : Str) :
    normalize_text (normalize_text s) = pyStrip (normalize_text s) := by
  have H := normalize_chars s
  conv_lhs => rw [normalize_text]
  have h1 : (normalize_text s).map pyLowerChar = normalize_text s := by
    rw [show (normalize_text s).map pyLowerChar =
        (normalize_text s).map id from
      List.map_congr_left (fun c hc => pyLower_fixed (H c hc))]
    exact List.map_id _
  rw [h1]
  have hstripmem : ∀ c ∈ pyStrip (normalize_text s),
      c ∈ lowerLetters ∨ c = ' ' := fun c hc => H c (mem_pyStrip hc)
  rw [flatMap_fixed (fun c hc => nfdChar_fixed (hstripmem c hc))]
  rw [List.filter_eq_self.mpr]
  intro c hc
  have dPred : ∀ c ∈ lowerLetters, (pyIsAlpha c || c = ' ') = true := by decide
  rcases hstripmem c hc with h | rfl
  · exact dPred c h
  · simp [pyIsAlpha]

theorem lcsLen_nil_left (p : Str) : lcsLen [] p = 0 := by
  cases p <;> simp [lcsLen]

/-! ## Claims -/

/-- C1, corrected (see `claim1_counterexample`): under the phonetic
folding used by `calcular_fonetico_score`, with the `grupos` rules
applied in their fixed enumerated order, every input occurrence of 'b'
or 'v' appears in the folded output as 'v' — not 'b' as claimed: the
later `"v"` rule rewrites the output of the earlier `"b"` rule. -/
theorem claim1_theorem (s : Str) (pr : Char × Char)
    (hpr : pr ∈ s.zip (foneticoFold s))
    (hbv : pyLowerChar pr.1 = 'b' ∨ pyLowerChar pr.1 = 'v') :
    pr.2 = 'v' := by
  rw [foneticoFold_map] at hpr
  have h2 := zip_map_snd hpr
  rcases hbv with h | h <;> rw [h2, h] <;> decide

/-- C1 counterexample: folding the input "b" yields "v", so the
occurrence of 'b' has not been replaced by 'b'. -/
theorem claim1_counterexample :
    ('b', 'v') ∈ (['b'] : Str).zip (foneticoFold ['b']) ∧ ('v' : Char) ≠ 'b' := by
  decide

/-- C1 witness: the amended claim at the concrete input "b". -/
theorem claim1_witness :
    (('b', 'v') ∈ (['b'] : Str).zip (foneticoFold ['b']) ∧
      (pyLowerChar 'b' = 'b' ∨ pyLowerChar 'b' = 'v')) ∧
    (('b', 'v') : Char × Char).2 = 'v' :=
  ⟨⟨by decide, by decide⟩, claim1_theorem ['b'] ('b', 'v') (by decide) (by decide)⟩

/-- C2, corrected (see `claim2_counterexample`): `normalize_text` is
idempotent only up to edge spaces — a second application equals
stripping the first result, which can differ when filtering exposes a
leading/trailing space that the strip of the first pass ran before. -/
theorem claim2_theorem (s : Str) :
    normalize_text (normalize_text s) = pyStrip (normalize_text s) :=
  normalize_normalize s

/-- C2 counterexample: `normalize("a .") = "a "` (the trailing space
survives because '.' was stripped only after `strip()` ran), but
normalizing again gives `"a"`. -/
theorem claim2_counterexample :
    normalize_text (normalize_text "a .".data) ≠ normalize_text "a .".data := by
  decide

/-- C3, confirmed: every character of `normalize_text s` is a space or
a lowercase letter. -/
theorem claim3_theorem (s : Str) (c : Char) (h : c ∈ normalize_text s) :
    c = ' ' ∨ ('a' ≤ c ∧ c ≤ 'z') := by
  have d : ∀ c ∈ lowerLetters, 'a' ≤ c ∧ c ≤ 'z' := by decide
  rcases normalize_chars s c h with hl | hs
  · right
    exact d c hl
  · left
    exact hs

/-- C3 witness: the character 'a' of `normalize_text "Ab"`. -/
theorem claim3_witness :
    ('a' ∈ normalize_text "Ab".data) ∧
      ('a' = ' ' ∨ ('a' ≤ 'a' ∧ 'a' ≤ 'z')) :=
  ⟨by decide, claim3_theorem "Ab".data 'a' (by decide)⟩

/-- C4, corrected (see `claim4_counterexample`): the aggregator
evaluates `fuzzy*0.3 + lev*0.3 + seq*0.2 + fonetico*0.2` in IEEE-754
double precision and truncates toward zero.  At (90,80,70,60) the
result is exactly 77 as the claim says, and truncation — not rounding
— is observable at (100,100,99,99): the double sum exceeds 99.5 yet
the result is 99.  But the result is not always the truncation of the
exact weighted sum: at (0,6,1,0) the code yields 1 while the exact sum
is 2.0. -/
theorem claim4_theorem :
    evaluate_final_score 90 80 70 60 = 77 ∧
    evaluate_final_score 100 100 99 99 = 99 ∧
    (199 : ℚ) / 2 < dval (weightedDoubleSum 100 100 99 99) ∧
    evaluate_final_score 0 6 1 0 = 1 := by
  refine ⟨by decide, by decide, ?_, by decide⟩
  have h : weightedDoubleSum 100 100 99 99 = ⟨7008726920095334, -46⟩ := by decide
  rw [h]
  norm_num [dval]
  rw [show Int.toNat 46 = 46 from rfl]
  norm_num

/-- C4 counterexample: at (fuzzy, lev, seq, fonetico) = (0, 6, 1, 0)
the code computes 1, while truncating the exact weighted sum
`0*0.30 + 6*0.30 + 1*0.20 + 0*0.20 = 2.0` gives 2: the float
evaluation, not the exact weighted sum, is truncated. -/
theorem claim4_counterexample :
    evaluate_final_score 0 6 1 0 = 1 ∧ aggregate_exact 0 6 1 0 = 2 := by
  constructor
  · decide
  · norm_num [aggregate_exact]

/-- C5, confirmed: the edit-distance, sequence-match and phonetic
metrics each return 100 on two empty inputs and 0 when exactly one
input is empty. -/
theorem claim5_theorem :
    (calcular_levenshtein_score [] [] = 100 ∧
      calcular_sequence_score [] [] = 100 ∧
      calcular_fonetico_score [] [] = 100) ∧
    ∀ p : Str, p ≠ [] →
      calcular_levenshtein_score p [] = 0 ∧
      calcular_levenshtein_score [] p = 0 ∧
      calcular_sequence_score p [] = 0 ∧
      calcular_sequence_score [] p = 0 ∧
      calcular_fonetico_score p [] = 0 ∧
      calcular_fonetico_score [] p = 0 := by
  refine ⟨⟨by decide, by decide, by decide⟩, fun p hp => ?_⟩
  refine ⟨?_, ?_, calcular_sequence_score_nil_right p hp,
    calcular_sequence_score_nil_left p hp,
    calcular_fonetico_score_nil_right p hp,
    calcular_fonetico_score_nil_left p hp⟩
  · unfold calcular_levenshtein_score
    rw [if_neg (by simp [hp]), if_pos (Or.inr rfl)]
  · unfold calcular_levenshtein_score
    rw [if_neg (by simp [hp]), if_pos (Or.inl rfl)]

/-- C5 witness: the one-empty cases at the concrete string "a". -/
theorem claim5_witness :
    ((['a'] : Str) ≠ []) ∧
    (calcular_levenshtein_score ['a'] [] = 0 ∧
      calcular_levenshtein_score [] ['a'] = 0 ∧
      calcular_sequence_score ['a'] [] = 0 ∧
      calcular_sequence_score [] ['a'] = 0 ∧
      calcular_fonetico_score ['a'] [] = 0 ∧
      calcular_fonetico_score [] ['a'] = 0) :=
  ⟨by decide, claim5_theorem.2 ['a'] (by decide)⟩

/-- C6, confirmed: the phonetic metric gives
`score_phonetic("casa","caza") = 100` (s and z fold together) and
`score_phonetic("ola","olla") < 100` (in fact 85). -/
theorem claim6_theorem :
    calcular_fonetico_score "casa".data "caza".data = 100 ∧
    calcular_fonetico_score "ola".data "olla".data < 100 := by
  decide

/-- C7, corrected (see `claim7_counterexample`): the sequence-match
metric is not symmetric in general; it is symmetric when the two
arguments are equal or either argument is empty. -/
theorem claim7_theorem (a b : Str) (h : a = b ∨ a = [] ∨ b = []) :
    calcular_sequence_score a b = calcular_sequence_score b a := by
  rcases h with rfl | rfl | rfl
  · rfl
  · by_cases hb : b = []
    · subst hb
      rfl
    · rw [calcular_sequence_score_nil_left b hb,
        calcular_sequence_score_nil_right b hb]
  · by_cases ha : a = []
    · subst ha
      rfl
    · rw [calcular_sequence_score_nil_right a ha,
        calcular_sequence_score_nil_left a ha]

/-- C7 counterexample: `score_sequence_match("aba","babba") = 75` but
`score_sequence_match("babba","aba") = 50`: `SequenceMatcher.ratio` is
order-dependent. -/
theorem claim7_counterexample :
    calcular_sequence_score "aba".data "babba".data = 75 ∧
    calcular_sequence_score "babba".data "aba".data = 50 := by
  decide

/-- C7 witness: the amended symmetry at equal arguments "a". -/
theorem claim7_witness :
    ((['a'] : Str) = ['a'] ∨ (['a'] : Str) = [] ∨ (['a'] : Str) = []) ∧
    calcular_sequence_score ['a'] ['a'] = calcular_sequence_score ['a'] ['a'] :=
  ⟨Or.inl rfl, claim7_theorem ['a'] ['a'] (Or.inl rfl)⟩

/-- C8, confirmed: each of the four metrics returns 100 on two equal
non-empty inputs. -/
theorem claim8_theorem (p : Str) (h : p ≠ []) :
    calcular_levenshtein_score p p = 100 ∧
    calcular_sequence_score p p = 100 ∧
    calcular_fuzzy_score p p = 100 ∧
    calcular_fonetico_score p p = 100 :=
  ⟨calcular_levenshtein_score_self p h, calcular_sequence_score_self p h,
    calcular_fuzzy_score_self p h, calcular_fonetico_score_self p h⟩

/-- C8 witness: reflexivity at the concrete string "a". -/
theorem claim8_witness :
    ((['a'] : Str) ≠ []) ∧
    (calcular_levenshtein_score ['a'] ['a'] = 100 ∧
      calcular_sequence_score ['a'] ['a'] = 100 ∧
      calcular_fuzzy_score ['a'] ['a'] = 100 ∧
      calcular_fonetico_score ['a'] ['a'] = 100) :=
  ⟨by decide, claim8_theorem ['a'] (by decide)⟩

/-- C9, confirmed: all four metrics return an integer in [0, 100] for
every pair of inputs (the scores are naturals, so 0 ≤ score holds by
construction and is stated for completeness). -/
theorem claim9_theorem (p1 p2 : Str) :
    (0 ≤ calcular_levenshtein_score p1 p2 ∧
      calcular_levenshtein_score p1 p2 ≤ 100) ∧
    (0 ≤ calcular_sequence_score p1 p2 ∧
      calcular_sequence_score p1 p2 ≤ 100) ∧
    (0 ≤ calcular_fuzzy_score p1 p2 ∧ calcular_fuzzy_score p1 p2 ≤ 100) ∧
    (0 ≤ calcular_fonetico_score p1 p2 ∧
      calcular_fonetico_score p1 p2 ≤ 100) :=
  ⟨⟨Nat.zero_le _, calcular_levenshtein_score_le p1 p2⟩,
    ⟨Nat.zero_le _, calcular_sequence_score_le p1 p2⟩,
    ⟨Nat.zero_le _, calcular_fuzzy_score_le p1 p2⟩,
    ⟨Nat.zero_le _, calcular_fonetico_score_le p1 p2⟩⟩

/-- C10, confirmed: the fuzzy metric returns 100 on two empty inputs
(the explicit special case) and 0 when exactly one input is empty (the
ratio's native behaviour: the indel distance then equals the summed
length). -/
theorem claim10_theorem :
    calcular_fuzzy_score [] [] = 100 ∧
    ∀ p : Str, p ≠ [] →
      calcular_fuzzy_score p [] = 0 ∧ calcular_fuzzy_score [] p = 0 := by
  refine ⟨by decide, fun p hp => ?_⟩
  constructor
  · unfold calcular_fuzzy_score
    rw [if_neg (by simp [hp]), lcsLen_nil_right]
    simp
  · unfold calcular_fuzzy_score
    rw [if_neg (by simp [hp]), lcsLen_nil_left]
    simp

/-- C10 witness: the one-empty cases at the concrete string "a". -/
theorem claim10_witness :
    ((['a'] : Str) ≠ []) ∧
    (calcular_fuzzy_score ['a'] [] = 0 ∧ calcular_fuzzy_score [] ['a'] = 0) :=
  ⟨by decide, claim10_theorem.2 ['a'] (by decide)⟩

end Calificador
